import Mathlib

/-!
Verification of the extraction core of the capital-flow-explorer repository.

The development shallowly embeds the Python functions of
`python_sandbox/data/analyze_asset_buys_sells.py`,
`python_sandbox/data/comprehensive_asset_analysis.py` and
`python_sandbox/data/analyze_volatility.py` as executable Lean definitions
and proves, or refutes, the frozen claims about them.

Modelling conventions:
* ISO-8601 timestamp strings of uniform format (`YYYY-MM-DDThh:mm:ss`) are
  totally ordered lexicographically and that order agrees with chronological
  order; a timestamp is therefore modelled as a `Nat` (minutes since an
  epoch), its calendar date as the quotient by `minutesPerDay`.  Python's
  `sorted` over the string keys is modelled by sorting those numbers.
* Python floats are modelled by `ℚ`; the claims under study involve only
  exact equalities the source establishes by construction.
* A Python dict (always obtained from `json.load`, hence with string keys
  and unique keys) is modelled by an association list.
-/

/-- Minutes per calendar day.  Timestamps are minute counts since an epoch;
the calendar date of a timestamp is the minute count divided by this. -/
def minutesPerDay : Nat := 1440

/-- Embeds `parse_timestamp` (both scripts): an ISO timestamp reduced to its
calendar date — the part before the letter T is kept, the time of day
discarded. -/
def parse_timestamp (k : Nat) : Nat := k / minutesPerDay

/-- A NAV / value time series: the `rawValue` dict mapping timestamp keys to
numeric values. -/
abbrev TimeSeries := List (Nat × ℚ)

/-- The two transaction actions emitted by `find_buy_sell_dates`. -/
inductive TxAction where
  | bought
  | sold
  deriving DecidableEq, Repr

/-- One emitted transaction event: `{"action": ..., "date": "YYYY-MM-DD"}`.
The date string is modelled by its day number (strftime/strptime of the
`%Y-%m-%d` format are mutually inverse). -/
structure Transaction where
  action : TxAction
  date : Nat
  deriving DecidableEq, Repr

/-- Embeds the gap scan of `find_buy_sell_dates` (lines 48-64): for every
consecutive pair of sorted dates with a gap of more than one day, a `sold`
at the earlier date and a `bought` at the later date are appended. -/
def gapEvents : List Nat → List Transaction
  | a :: b :: rest =>
      (if b - a > 1 then [⟨.sold, a⟩, ⟨.bought, b⟩] else []) ++ gapEvents (b :: rest)
  | _ => []

/-- Embeds `find_buy_sell_dates` of `analyze_asset_buys_sells.py`.  The
source pins `REFERENCE_END_DATE = datetime(2025, 11, 29)` as a module
constant; it is taken as the parameter `refEnd` here (the spec calls it the
configurable reference end date).  The source sorts the parsed dates
(duplicates are not removed), emits `bought` at the first date, runs the gap
scan, and appends a final `sold` at the last date whenever that date is not
equal to the reference end date. -/
def find_buy_sell_dates (refEnd : Nat) (ts : TimeSeries) : List Transaction :=
  if ts.isEmpty then []
  else
    match List.insertionSort (· ≤ ·) (ts.map (fun p => parse_timestamp p.1)) with
    | [] => []
    | d :: ds =>
        ⟨.bought, d⟩ ::
          (gapEvents (d :: ds) ++
            if (d :: ds).getLastD 0 ≠ refEnd then [⟨.sold, (d :: ds).getLastD 0⟩] else [])

/-- Removes adjacent duplicates; on a sorted list this yields the distinct
elements in ascending order. -/
def dedupAdj : List Nat → List Nat
  | a :: b :: rest => if a = b then dedupAdj (b :: rest) else a :: dedupAdj (b :: rest)
  | l => l

/-- Spec-side reconstruction, written from the specification's words (§4.4):
sort the distinct calendar dates (time of day discarded) ascending; emit
`bought` at the first date; for every consecutive pair with a gap exceeding
one day emit `sold` at the earlier and `bought` at the later date; after the
scan emit a final `sold` at the last date exactly when it is strictly before
the reference end date.  An empty series yields an empty sequence. -/
def reconstructSpec (refEnd : Nat) (ts : TimeSeries) : List Transaction :=
  match dedupAdj (List.insertionSort (· ≤ ·) (ts.map (fun p => parse_timestamp p.1))) with
  | [] => []
  | d :: ds =>
      ⟨.bought, d⟩ ::
        (gapEvents (d :: ds) ++
          if (d :: ds).getLastD 0 < refEnd then [⟨.sold, (d :: ds).getLastD 0⟩] else [])

theorem dedupAdj_cons_head (b : Nat) (rest : List Nat) :
    ∃ t, dedupAdj (b :: rest) = b :: t := by
  induction rest generalizing b with
  | nil => exact ⟨[], rfl⟩
  | cons c rest ih =>
      by_cases h : b = c
      · subst h
        obtain ⟨t, ht⟩ := ih b
        exact ⟨t, by simp [dedupAdj, ht]⟩
      · exact ⟨dedupAdj (c :: rest), by simp [dedupAdj, h]⟩

theorem gapEvents_dedupAdj (l : List Nat) : gapEvents (dedupAdj l) = gapEvents l := by
  induction l with
  | nil => rfl
  | cons a l ih =>
      match l with
      | [] => rfl
      | b :: rest =>
          by_cases h : a = b
          · subst h
            simp only [dedupAdj, eq_self_iff_true, if_true]
            rw [ih]
            simp [gapEvents]
          · obtain ⟨t, ht⟩ := dedupAdj_cons_head b rest
            simp only [dedupAdj, if_neg h, ht]
            simp only [gapEvents]
            rw [← ht, ih]

theorem dedupAdj_getLast? (l : List Nat) : (dedupAdj l).getLast? = l.getLast? := by
  induction l with
  | nil => rfl
  | cons a l ih =>
      match l with
      | [] => rfl
      | b :: rest =>
          by_cases h : a = b
          · subst h
            simp only [dedupAdj, eq_self_iff_true, if_true]
            rw [ih, List.getLast?_cons_cons]
          · obtain ⟨t, ht⟩ := dedupAdj_cons_head b rest
            simp only [dedupAdj, if_neg h, ht]
            rw [List.getLast?_cons_cons, ← ht, ih, List.getLast?_cons_cons]

theorem dedupAdj_getLastD (l : List Nat) (d : Nat) :
    (dedupAdj l).getLastD d = l.getLastD d := by
  rw [List.getLastD_eq_getLast?, List.getLastD_eq_getLast?, dedupAdj_getLast?]

theorem getLastD_mem_of_ne_nil (l : List Nat) (d : Nat) (h : l ≠ []) :
    l.getLastD d ∈ l := by
  induction l generalizing d with
  | nil => exact absurd rfl h
  | cons a l ih =>
      match l with
      | [] => simp [List.getLastD_cons]
      | b :: rest =>
          have := ih (d := a) (by simp)
          simp only [List.getLastD_cons] at *
          exact List.mem_cons_of_mem _ this

theorem find_buy_sell_dates_cons (refEnd : Nat) (ts : TimeSeries) (d : Nat) (ds : List Nat)
    (hne : ¬ ts.isEmpty)
    (hsm : List.insertionSort (· ≤ ·) (ts.map (fun p => parse_timestamp p.1)) = d :: ds) :
    find_buy_sell_dates refEnd ts =
      ⟨.bought, d⟩ ::
        (gapEvents (d :: ds) ++
          if (d :: ds).getLastD 0 ≠ refEnd then [⟨.sold, (d :: ds).getLastD 0⟩] else []) := by
  unfold find_buy_sell_dates
  rw [if_neg hne, hsm]

theorem reconstructSpec_cons (refEnd : Nat) (ts : TimeSeries) (d : Nat) (ds : List Nat)
    (hsm : List.insertionSort (· ≤ ·) (ts.map (fun p => parse_timestamp p.1)) = d :: ds) :
    reconstructSpec refEnd ts =
      ⟨.bought, d⟩ ::
        (gapEvents (d :: ds) ++
          if (d :: ds).getLastD 0 < refEnd then [⟨.sold, (d :: ds).getLastD 0⟩] else []) := by
  obtain ⟨t, ht⟩ := dedupAdj_cons_head d ds
  unfold reconstructSpec
  rw [hsm, ht]
  have h1 : gapEvents (d :: t) = gapEvents (d :: ds) := by
    rw [← ht, gapEvents_dedupAdj]
  have h2 : (d :: t).getLastD 0 = (d :: ds).getLastD 0 := by
    rw [← ht, dedupAdj_getLastD]
  dsimp only
  rw [h1, h2]

/-- C1.  Transaction reconstruction follows the specified algorithm: on
every series whose calendar dates do not exceed the reference end date (the
two cases the claim speaks about: last date strictly before, or equal to,
the reference end date), `find_buy_sell_dates` produces exactly the event
sequence of the spec's algorithm over the distinct sorted dates — `bought`
at the first date, `sold`/`bought` around every gap exceeding one day, and a
final `sold` at the last date exactly when it is strictly before the
reference end date; an empty series yields an empty sequence. -/
theorem claim_C1_transaction_reconstruction (refEnd : Nat) (ts : TimeSeries)
    (h : ∀ k ∈ ts.map Prod.fst, parse_timestamp k ≤ refEnd) :
    find_buy_sell_dates refEnd ts = reconstructSpec refEnd ts ∧
      find_buy_sell_dates refEnd [] = [] := by
  refine ⟨?_, rfl⟩
  rcases hts : ts with _ | ⟨p, l⟩
  · rfl
  · rw [← hts]
    have hne : ¬ ts.isEmpty := by rw [hts]; simp
    have hdlne : ts.map (fun p => parse_timestamp p.1) ≠ [] := by
      rw [hts]; simp
    obtain ⟨d, ds, hsm⟩ :
        ∃ d ds, List.insertionSort (· ≤ ·) (ts.map (fun p => parse_timestamp p.1)) = d :: ds := by
      rcases hsl : List.insertionSort (· ≤ ·) (ts.map (fun p => parse_timestamp p.1)) with _ | ⟨d, ds⟩
      · exfalso
        have hlen := (List.perm_insertionSort (· ≤ ·) (ts.map (fun p => parse_timestamp p.1))).length_eq
        rw [hsl] at hlen
        exact hdlne (List.length_eq_zero.mp hlen.symm)
      · exact ⟨d, ds, hsl⟩
    have hlastmem : (d :: ds).getLastD 0 ∈ ts.map (fun p => parse_timestamp p.1) := by
      have hmem : (d :: ds).getLastD 0 ∈ d :: ds := getLastD_mem_of_ne_nil _ 0 (by simp)
      have hmem' : (d :: ds).getLastD 0 ∈
          List.insertionSort (· ≤ ·) (ts.map (fun p => parse_timestamp p.1)) := by
        rw [hsm]; exact hmem
      exact ((List.perm_insertionSort (· ≤ ·) _).mem_iff).mp hmem'
    have hle : (d :: ds).getLastD 0 ≤ refEnd := by
      rcases List.mem_map.mp hlastmem with ⟨q, hq, he⟩
      rw [← he]
      exact h q.1 (List.mem_map.mpr ⟨q, hq, rfl⟩)
    rw [find_buy_sell_dates_cons refEnd ts d ds hne hsm,
        reconstructSpec_cons refEnd ts d ds hsm]
    by_cases hc : (d :: ds).getLastD 0 = refEnd
    · have h1 : ¬ ((d :: ds).getLastD 0 ≠ refEnd) := by omega
      have h2 : ¬ ((d :: ds).getLastD 0 < refEnd) := by omega
      rw [if_neg h1, if_neg h2]
    · have h2 : (d :: ds).getLastD 0 < refEnd := by omega
      rw [if_pos hc, if_pos h2]

/-- Witness for C1 at a concrete series: three data days (day numbers 0, 1
and 9 — a gap of 8 days), reference end date day 100. -/
theorem claim_C1_transaction_reconstruction_witness :
    find_buy_sell_dates 100 [(0, 1), (1440, 1), (12960, 1)] =
        reconstructSpec 100 [(0, 1), (1440, 1), (12960, 1)] ∧
      find_buy_sell_dates 100 [] = [] :=
  claim_C1_transaction_reconstruction 100 [(0, 1), (1440, 1), (12960, 1)] (by decide)

/-- Embeds the loop of `find_timestamp_key` of
`comprehensive_asset_analysis.py` (lines 36-55): walk the sorted keys; an
exact calendar-date match returns that key; a key before the target date
becomes the current candidate; a key past the target date stops the loop;
finally the candidate (if any) is returned. -/
def findTSLoop (d : Nat) : Option Nat → List Nat → Option Nat
  | best, [] => best
  | best, k :: rest =>
      if parse_timestamp k = d then some k
      else if parse_timestamp k < d then findTSLoop d (some k) rest
      else best

/-- Embeds `find_timestamp_key`: Python sorts the ISO timestamp keys as
strings, which for the uniform key format agrees with the numeric order of
the timestamp model. -/
def find_timestamp_key (d : Nat) (ts : TimeSeries) : Option Nat :=
  findTSLoop d none (List.insertionSort (· ≤ ·) (ts.map Prod.fst))

/-- Embeds `nav_time_series.get(ts_key, 0.0)`: dict lookup with default
`0.0` (keys of a JSON-parsed dict are unique, so the first binding is the
binding). -/
def navGet (ts : TimeSeries) (k : Nat) : ℚ :=
  match ts.find? (fun p => p.1 == k) with
  | some p => p.2
  | none => 0

/-- Embeds `nav_time_series.get(ts, 0.0) if ts else 0.0` (lines 209 and 217
of `comprehensive_asset_analysis.py`): the reference value at a date, with a
missing lookup converted to `0.0`. -/
def navRefValue (d : Nat) (ts : TimeSeries) : ℚ :=
  match find_timestamp_key d ts with
  | some k => navGet ts k
  | none => 0

theorem parse_timestamp_mono {a b : Nat} (h : a ≤ b) :
    parse_timestamp a ≤ parse_timestamp b :=
  Nat.div_le_div_right h

theorem findTSLoop_all_after (d : Nat) (best : Option Nat) (l : List Nat)
    (h : ∀ k ∈ l, d < parse_timestamp k) : findTSLoop d best l = best := by
  cases l with
  | nil => rfl
  | cons k rest =>
      have hk := h k (by simp)
      simp only [findTSLoop]
      rw [if_neg (by omega), if_neg (by omega)]

theorem findTSLoop_exact (d : Nat) (l : List Nat) (hs : l.Sorted (· ≤ ·)) :
    ∀ best, (∃ k ∈ l, parse_timestamp k = d) →
      ∃ k, findTSLoop d best l = some k ∧ k ∈ l ∧ parse_timestamp k = d := by
  induction l with
  | nil => intro best h; simp at h
  | cons a rest ih =>
      intro best h
      obtain ⟨ha, hrest⟩ := List.sorted_cons.mp hs
      by_cases h1 : parse_timestamp a = d
      · exact ⟨a, by simp [findTSLoop, h1], by simp, h1⟩
      · obtain ⟨k0, hk0mem, hk0d⟩ := h
        have hk0rest : k0 ∈ rest := by
          rcases List.mem_cons.mp hk0mem with he | hm
          · exact absurd (he ▸ hk0d) h1
          · exact hm
        by_cases h2 : parse_timestamp a < d
        · obtain ⟨k, hkeq, hkmem, hkd⟩ := ih hrest (some a) ⟨k0, hk0rest, hk0d⟩
          refine ⟨k, ?_, List.mem_cons_of_mem _ hkmem, hkd⟩
          simp only [findTSLoop]
          rw [if_neg h1, if_pos h2]
          exact hkeq
        · exfalso
          have : parse_timestamp a ≤ parse_timestamp k0 :=
            parse_timestamp_mono (ha k0 hk0rest)
          omega

theorem findTSLoop_past (d : Nat) (l : List Nat) (hs : l.Sorted (· ≤ ·)) :
    ∀ best, (∀ k ∈ l, parse_timestamp k ≠ d) → (∃ k ∈ l, parse_timestamp k < d) →
      ∃ k, findTSLoop d best l = some k ∧ k ∈ l ∧ parse_timestamp k < d ∧
        ∀ k' ∈ l, parse_timestamp k' < d → k' ≤ k := by
  induction l with
  | nil => intro best _ h; simp at h
  | cons a rest ih =>
      intro best hne hex
      obtain ⟨ha, hrest⟩ := List.sorted_cons.mp hs
      have hnea : parse_timestamp a ≠ d := hne a (by simp)
      by_cases hlt : parse_timestamp a < d
      · by_cases hexr : ∃ k ∈ rest, parse_timestamp k < d
        · obtain ⟨k, hkeq, hkmem, hkd, hkmax⟩ :=
            ih hrest (some a) (fun k hk => hne k (List.mem_cons_of_mem _ hk)) hexr
          refine ⟨k, ?_, List.mem_cons_of_mem _ hkmem, hkd, ?_⟩
          · simp only [findTSLoop]
            rw [if_neg hnea, if_pos hlt]
            exact hkeq
          · intro k' hk' hk'd
            rcases List.mem_cons.mp hk' with he | hm
            · exact he ▸ ha k hkmem
            · exact hkmax k' hm hk'd
        · push_neg at hexr
          have hafter : ∀ k ∈ rest, d < parse_timestamp k := by
            intro k hk
            have h1 := hexr k hk
            have h2 := hne k (List.mem_cons_of_mem _ hk)
            omega
          refine ⟨a, ?_, by simp, hlt, ?_⟩
          · simp only [findTSLoop]
            rw [if_neg hnea, if_pos hlt]
            exact findTSLoop_all_after d (some a) rest hafter
          · intro k' hk' hk'd
            rcases List.mem_cons.mp hk' with he | hm
            · exact he.le
            · exact absurd hk'd (by have := hexr k' hm; omega)
      · exfalso
        obtain ⟨k0, hk0mem, hk0d⟩ := hex
        have hk0rest : k0 ∈ rest := by
          rcases List.mem_cons.mp hk0mem with he | hm
          · exact absurd (he ▸ hk0d) (by omega)
          · exact hm
        have : parse_timestamp a ≤ parse_timestamp k0 :=
          parse_timestamp_mono (ha k0 hk0rest)
        omega

/-- C3.  The nearest-past-date lookup returns the value at an exact-date key
when one exists; otherwise the value at the latest key strictly before the
date; and when every key lies strictly after the date it returns nothing,
which the valuation engine converts to a zero-valued reference (`0.0`)
rather than failing. -/
theorem claim_C3_nearest_past_lookup (d : Nat) (ts : TimeSeries) :
    ((∃ k ∈ ts.map Prod.fst, parse_timestamp k = d) →
      ∃ k, find_timestamp_key d ts = some k ∧ k ∈ ts.map Prod.fst ∧
        parse_timestamp k = d ∧ navRefValue d ts = navGet ts k) ∧
    ((∀ k ∈ ts.map Prod.fst, parse_timestamp k ≠ d) →
      (∃ k ∈ ts.map Prod.fst, parse_timestamp k < d) →
      ∃ k, find_timestamp_key d ts = some k ∧ k ∈ ts.map Prod.fst ∧
        parse_timestamp k < d ∧
        (∀ k' ∈ ts.map Prod.fst, parse_timestamp k' < d → k' ≤ k) ∧
        navRefValue d ts = navGet ts k) ∧
    ((∀ k ∈ ts.map Prod.fst, d < parse_timestamp k) →
      find_timestamp_key d ts = none ∧ navRefValue d ts = 0) := by
  have hperm := List.perm_insertionSort (· ≤ ·) (ts.map Prod.fst)
  have hsorted := List.sorted_insertionSort (· ≤ ·) (ts.map Prod.fst)
  refine ⟨?_, ?_, ?_⟩
  · intro hex
    obtain ⟨k0, hk0mem, hk0d⟩ := hex
    obtain ⟨k, hkeq, hkmem, hkd⟩ :=
      findTSLoop_exact d _ hsorted none ⟨k0, hperm.mem_iff.mpr hk0mem, hk0d⟩
    refine ⟨k, hkeq, hperm.mem_iff.mp hkmem, hkd, ?_⟩
    simp [navRefValue, find_timestamp_key, hkeq]
  · intro hne hex
    obtain ⟨k0, hk0mem, hk0d⟩ := hex
    obtain ⟨k, hkeq, hkmem, hkd, hkmax⟩ :=
      findTSLoop_past d _ hsorted none
        (fun k hk => hne k (hperm.mem_iff.mp hk))
        ⟨k0, hperm.mem_iff.mpr hk0mem, hk0d⟩
    refine ⟨k, hkeq, hperm.mem_iff.mp hkmem, hkd, ?_, ?_⟩
    · intro k' hk' hk'd
      exact hkmax k' (hperm.mem_iff.mpr hk') hk'd
    · simp [navRefValue, find_timestamp_key, hkeq]
  · intro hafter
    have heq : find_timestamp_key d ts = none :=
      findTSLoop_all_after d none _ (fun k hk => hafter k (hperm.mem_iff.mp hk))
    exact ⟨heq, by simp [navRefValue, heq]⟩

/-- Witness for C3 on the concrete series with data days 5 and 7 (keys are
minute counts 7200 and 10080): day 3 precedes all data and yields the zero
reference, day 5 is an exact hit, day 6 falls back to the latest earlier
key. -/
theorem claim_C3_nearest_past_lookup_witness :
    (find_timestamp_key 3 [(7200, 10), (10080, 20)] = none ∧
      navRefValue 3 [(7200, 10), (10080, 20)] = 0) ∧
    (∃ k, find_timestamp_key 5 [(7200, 10), (10080, 20)] = some k ∧
      k ∈ [(7200, (10 : ℚ)), (10080, 20)].map Prod.fst ∧
      parse_timestamp k = 5 ∧
      navRefValue 5 [(7200, 10), (10080, 20)] = navGet [(7200, 10), (10080, 20)] k) ∧
    (∃ k, find_timestamp_key 6 [(7200, 10), (10080, 20)] = some k ∧
      k ∈ [(7200, (10 : ℚ)), (10080, 20)].map Prod.fst ∧
      parse_timestamp k < 6 ∧
      (∀ k' ∈ [(7200, (10 : ℚ)), (10080, 20)].map Prod.fst,
        parse_timestamp k' < 6 → k' ≤ k) ∧
      navRefValue 6 [(7200, 10), (10080, 20)] = navGet [(7200, 10), (10080, 20)] k) :=
  ⟨(claim_C3_nearest_past_lookup 3 [(7200, 10), (10080, 20)]).2.2 (by decide),
   (claim_C3_nearest_past_lookup 5 [(7200, 10), (10080, 20)]).1 (by decide),
   (claim_C3_nearest_past_lookup 6 [(7200, 10), (10080, 20)]).2.1 (by decide) (by decide)⟩

/-- One reconstructed buy/sell interval as emitted by
`calculate_profit_and_prices`. -/
structure TransactionDetail where
  buy_date : Nat
  sell_date : Nat
  purchase_price : ℚ
  selling_price : ℚ
  buy_nav : ℚ
  sell_nav : ℚ
  profit : ℚ
  deriving DecidableEq, Repr

/-- The result dict of `calculate_profit_and_prices`; `error` records the
presence of the `"error"` key of the empty-series early return. -/
structure ProfitResult where
  asset : String
  total_profit : ℚ
  transactions_detail : List TransactionDetail
  error : Bool
  deriving DecidableEq, Repr

/-- Embeds `sorted(nav_time_series.keys())[-1]` (line 221): the last NAV
timestamp key in sorted order. -/
def lastNavKey (ts : TimeSeries) : Nat :=
  (List.insertionSort (· ≤ ·) (ts.map Prod.fst)).getLastD 0

/-- Builds one transactions-detail record (lines 226-248): profit is the NAV
difference; the purchase price is the override when present and strictly
positive (the source comments that `0.0` is treated like `None`), otherwise
the buy NAV; the selling price is always purchase price plus profit. -/
def mkDetail (pp : Option ℚ) (buy_date sell_date : Nat) (buy_nav sell_nav : ℚ) :
    TransactionDetail :=
  let profit := sell_nav - buy_nav
  let actual := match pp with
    | some p => if 0 < p then p else buy_nav
    | none => buy_nav
  ⟨buy_date, sell_date, actual, actual + profit, buy_nav, sell_nav, profit⟩

/-- Embeds the while-loop of `calculate_profit_and_prices` (lines 203-253):
a `bought` event is paired with the immediately following event when that is
a `sold` (consuming both), otherwise with a synthetic sell at the last NAV
key (consuming just the `bought`); a `sold` event reached directly is
skipped.  Returns the accumulated total profit and the detail list. -/
def profitLoop (ts : TimeSeries) (pp : Option ℚ) : List Transaction → ℚ × List TransactionDetail
  | [] => (0, [])
  | t :: rest =>
    match t.action with
    | .sold => profitLoop ts pp rest
    | .bought =>
      match rest with
      | s :: rest' =>
        if s.action = .sold then
          let d := mkDetail pp t.date s.date (navRefValue t.date ts) (navRefValue s.date ts)
          let r := profitLoop ts pp rest'
          (d.profit + r.1, d :: r.2)
        else
          let d := mkDetail pp t.date (parse_timestamp (lastNavKey ts))
            (navRefValue t.date ts) (navGet ts (lastNavKey ts))
          let r := profitLoop ts pp (s :: rest')
          (d.profit + r.1, d :: r.2)
      | [] =>
          let d := mkDetail pp t.date (parse_timestamp (lastNavKey ts))
            (navRefValue t.date ts) (navGet ts (lastNavKey ts))
          (d.profit, [d])

/-- Embeds `calculate_profit_and_prices`: an empty NAV series short-circuits
to a zero result carrying the `"error"` key; otherwise the event loop runs. -/
def calculate_profit_and_prices (asset_name : String) (transactions : List Transaction)
    (nav_time_series : TimeSeries) (purchase_price : Option ℚ) : ProfitResult :=
  if nav_time_series.isEmpty then
    ⟨asset_name, 0, [], true⟩
  else
    let r := profitLoop nav_time_series purchase_price transactions
    ⟨asset_name, r.1, r.2, false⟩

/-- Spec-side pairing rule, written from the specification's words (§4.5):
walk events in order; each `bought` is paired with the next `sold` when one
immediately follows in the sequence; when none follows (open position) it is
paired with a synthetic sell at the last available NAV date using that date
and NAV value; no event is used twice (each pairing consumes its events).
The projection records buy date, sell date and sell reference value. -/
def specPairs (sellRef : Nat → ℚ) (lastD : Nat) (lastV : ℚ) :
    List Transaction → List (Nat × Nat × ℚ)
  | [] => []
  | t :: rest =>
    match t.action with
    | .sold => specPairs sellRef lastD lastV rest
    | .bought =>
      match rest with
      | s :: rest' =>
        if s.action = .sold then
          (t.date, s.date, sellRef s.date) :: specPairs sellRef lastD lastV rest'
        else
          (t.date, lastD, lastV) :: specPairs sellRef lastD lastV (s :: rest')
      | [] => [(t.date, lastD, lastV)]

theorem sorted_le_getLastD :
    ∀ (l : List Nat), l.Sorted (· ≤ ·) → ∀ x ∈ l, x ≤ l.getLastD 0 := by
  intro l
  induction l with
  | nil => intro _ x hx; simp at hx
  | cons a rest ih =>
      intro hs x hx
      obtain ⟨ha, hrest⟩ := List.sorted_cons.mp hs
      cases rest with
      | nil =>
          rcases List.mem_cons.mp hx with he | hm
          · subst he; simp [List.getLastD_cons]
          · simp at hm
      | cons b r =>
          have hlast_eq : (a :: b :: r).getLastD 0 = (b :: r).getLastD 0 := by
            rw [List.getLastD_eq_getLast?, List.getLastD_eq_getLast?, List.getLast?_cons_cons]
          rcases List.mem_cons.mp hx with he | hm
          · subst he
            have hmem : (b :: r).getLastD 0 ∈ b :: r := getLastD_mem_of_ne_nil _ 0 (by simp)
            rw [hlast_eq]
            exact ha _ hmem
          · rw [hlast_eq]
            exact ih hrest x hm

theorem lastNavKey_is_last (ts : TimeSeries) (h : ts ≠ []) :
    lastNavKey ts ∈ ts.map Prod.fst ∧ ∀ k ∈ ts.map Prod.fst, k ≤ lastNavKey ts := by
  have hperm := List.perm_insertionSort (· ≤ ·) (ts.map Prod.fst)
  have hsorted := List.sorted_insertionSort (· ≤ ·) (ts.map Prod.fst)
  have hne : List.insertionSort (· ≤ ·) (ts.map Prod.fst) ≠ [] := by
    intro hc
    have hlen := hperm.length_eq
    rw [hc] at hlen
    have : ts.map Prod.fst = [] := List.length_eq_zero.mp hlen.symm
    cases ts with
    | nil => exact h rfl
    | cons p l => simp at this
  constructor
  · exact hperm.mem_iff.mp (getLastD_mem_of_ne_nil _ 0 hne)
  · intro k hk
    exact sorted_le_getLastD _ hsorted k (hperm.mem_iff.mpr hk)


theorem profitLoop_cons_sold (ts : TimeSeries) (pp : Option ℚ) (d : Nat)
    (rest : List Transaction) :
    profitLoop ts pp (⟨.sold, d⟩ :: rest) = profitLoop ts pp rest := rfl

theorem profitLoop_cons_buy_sell (ts : TimeSeries) (pp : Option ℚ) (db sd : Nat)
    (rest' : List Transaction) :
    profitLoop ts pp (⟨.bought, db⟩ :: ⟨.sold, sd⟩ :: rest') =
      ((mkDetail pp db sd (navRefValue db ts) (navRefValue sd ts)).profit +
          (profitLoop ts pp rest').1,
        mkDetail pp db sd (navRefValue db ts) (navRefValue sd ts) ::
          (profitLoop ts pp rest').2) := rfl

theorem profitLoop_cons_buy_open (ts : TimeSeries) (pp : Option ℚ) (db sd : Nat)
    (rest' : List Transaction) :
    profitLoop ts pp (⟨.bought, db⟩ :: ⟨.bought, sd⟩ :: rest') =
      ((mkDetail pp db (parse_timestamp (lastNavKey ts)) (navRefValue db ts)
            (navGet ts (lastNavKey ts))).profit +
          (profitLoop ts pp (⟨.bought, sd⟩ :: rest')).1,
        mkDetail pp db (parse_timestamp (lastNavKey ts)) (navRefValue db ts)
            (navGet ts (lastNavKey ts)) ::
          (profitLoop ts pp (⟨.bought, sd⟩ :: rest')).2) := rfl

theorem profitLoop_single_buy (ts : TimeSeries) (pp : Option ℚ) (db : Nat) :
    profitLoop ts pp [⟨.bought, db⟩] =
      ((mkDetail pp db (parse_timestamp (lastNavKey ts)) (navRefValue db ts)
            (navGet ts (lastNavKey ts))).profit,
        [mkDetail pp db (parse_timestamp (lastNavKey ts)) (navRefValue db ts)
            (navGet ts (lastNavKey ts))]) := rfl

theorem profitLoop_pairs (ts : TimeSeries) (pp : Option ℚ) (evts : List Transaction) :
    (profitLoop ts pp evts).2.map (fun d => (d.buy_date, d.sell_date, d.sell_nav)) =
      specPairs (fun x => navRefValue x ts) (parse_timestamp (lastNavKey ts))
        (navGet ts (lastNavKey ts)) evts := by
  induction evts using profitLoop.induct ts pp with
  | case1 => rfl
  | case2 t rest ha ih =>
      obtain ⟨ta, td⟩ := t
      simp only [Transaction.action] at ha
      subst ha
      rw [profitLoop_cons_sold]
      exact ih
  | case3 t ha s rest' hs ih =>
      obtain ⟨ta, td⟩ := t
      obtain ⟨sa, sd⟩ := s
      simp only [Transaction.action] at ha hs
      subst ha
      subst hs
      rw [profitLoop_cons_buy_sell]
      simp only [List.map_cons, ih, mkDetail]
      rfl
  | case4 t ha s rest' hs ih =>
      obtain ⟨ta, td⟩ := t
      obtain ⟨sa, sd⟩ := s
      simp only [Transaction.action] at ha hs
      subst ha
      have hsb : sa = .bought := by
        cases sa with
        | bought => rfl
        | sold => exact absurd rfl hs
      subst hsb
      rw [profitLoop_cons_buy_open]
      simp only [List.map_cons, ih, mkDetail]
      rfl
  | case5 t ha =>
      obtain ⟨ta, td⟩ := t
      simp only [Transaction.action] at ha
      subst ha
      rw [profitLoop_single_buy]
      rfl

theorem profitLoop_length (ts : TimeSeries) (pp : Option ℚ) (evts : List Transaction) :
    (profitLoop ts pp evts).2.length =
      (evts.filter (fun t => t.action == .bought)).length := by
  induction evts using profitLoop.induct ts pp with
  | case1 => rfl
  | case2 t rest ha ih =>
      obtain ⟨ta, td⟩ := t
      simp only [Transaction.action] at ha
      subst ha
      rw [profitLoop_cons_sold]
      simpa using ih
  | case3 t ha s rest' hs ih =>
      obtain ⟨ta, td⟩ := t
      obtain ⟨sa, sd⟩ := s
      simp only [Transaction.action] at ha hs
      subst ha
      subst hs
      rw [profitLoop_cons_buy_sell]
      simpa using ih
  | case4 t ha s rest' hs ih =>
      obtain ⟨ta, td⟩ := t
      obtain ⟨sa, sd⟩ := s
      simp only [Transaction.action] at ha hs
      subst ha
      have hsb : sa = .bought := by
        cases sa with
        | bought => rfl
        | sold => exact absurd rfl hs
      subst hsb
      rw [profitLoop_cons_buy_open]
      simpa using ih
  | case5 t ha =>
      obtain ⟨ta, td⟩ := t
      simp only [Transaction.action] at ha
      subst ha
      rw [profitLoop_single_buy]
      rfl

/-- C2.  In the valuation engine each `bought` event is paired with the
immediately following `sold` when one exists, and otherwise with a synthetic
sell at the last available NAV date using that date and NAV value; the
emitted pair sequence equals the spec-side pairing that consumes each event
at most once, and there is exactly one detail per `bought` event.  The last
NAV key used for synthetic sells really is the greatest key of the series. -/
theorem claim_C2_event_pairing (asset : String) (ts : TimeSeries) (pp : Option ℚ)
    (evts : List Transaction) (h : ts ≠ []) :
    (calculate_profit_and_prices asset evts ts pp).transactions_detail.map
        (fun d => (d.buy_date, d.sell_date, d.sell_nav)) =
      specPairs (fun x => navRefValue x ts) (parse_timestamp (lastNavKey ts))
        (navGet ts (lastNavKey ts)) evts ∧
    (calculate_profit_and_prices asset evts ts pp).transactions_detail.length =
      (evts.filter (fun t => t.action == .bought)).length ∧
    lastNavKey ts ∈ ts.map Prod.fst ∧
    (∀ k ∈ ts.map Prod.fst, k ≤ lastNavKey ts) := by
  have hne : ¬ ts.isEmpty := by
    cases ts with
    | nil => exact absurd rfl h
    | cons p l => simp
  obtain ⟨hmem, hmax⟩ := lastNavKey_is_last ts h
  refine ⟨?_, ?_, hmem, hmax⟩
  · simp only [calculate_profit_and_prices, if_neg hne]
    exact profitLoop_pairs ts pp evts
  · simp only [calculate_profit_and_prices, if_neg hne]
    exact profitLoop_length ts pp evts

/-- Witness for C2: two buys with one sold between them over a two-point NAV
series (the second buy is an open position closed synthetically). -/
theorem claim_C2_event_pairing_witness :
    (calculate_profit_and_prices "a"
        [⟨.bought, 5⟩, ⟨.sold, 6⟩, ⟨.bought, 7⟩] [(7200, 10), (10080, 20)]
        none).transactions_detail.map
        (fun d => (d.buy_date, d.sell_date, d.sell_nav)) =
      specPairs (fun x => navRefValue x [(7200, 10), (10080, 20)])
        (parse_timestamp (lastNavKey [(7200, 10), (10080, 20)]))
        (navGet [(7200, 10), (10080, 20)] (lastNavKey [(7200, 10), (10080, 20)]))
        [⟨.bought, 5⟩, ⟨.sold, 6⟩, ⟨.bought, 7⟩] ∧
    (calculate_profit_and_prices "a"
        [⟨.bought, 5⟩, ⟨.sold, 6⟩, ⟨.bought, 7⟩] [(7200, 10), (10080, 20)]
        none).transactions_detail.length =
      (([⟨.bought, 5⟩, ⟨.sold, 6⟩, ⟨.bought, 7⟩] : List Transaction).filter
        (fun t => t.action == .bought)).length ∧
    lastNavKey [(7200, 10), (10080, 20)] ∈
      [(7200, (10 : ℚ)), (10080, 20)].map Prod.fst ∧
    (∀ k ∈ [(7200, (10 : ℚ)), (10080, 20)].map Prod.fst,
      k ≤ lastNavKey [(7200, 10), (10080, 20)]) :=
  claim_C2_event_pairing "a" [(7200, 10), (10080, 20)] none
    [⟨.bought, 5⟩, ⟨.sold, 6⟩, ⟨.bought, 7⟩] (by simp)

theorem profitLoop_fields (ts : TimeSeries) (pp : Option ℚ) (evts : List Transaction) :
    (∀ d ∈ (profitLoop ts pp evts).2,
      d.profit = d.sell_nav - d.buy_nav ∧
      d.selling_price = d.purchase_price + d.profit ∧
      d.buy_nav = navRefValue d.buy_date ts ∧
      d.purchase_price = (match pp with
        | some p => if 0 < p then p else d.buy_nav
        | none => d.buy_nav)) ∧
    (profitLoop ts pp evts).1 =
      ((profitLoop ts pp evts).2.map (fun d => d.profit)).sum := by
  induction evts using profitLoop.induct ts pp with
  | case1 => exact ⟨fun d hd => absurd hd (List.not_mem_nil d), rfl⟩
  | case2 t rest ha ih =>
      obtain ⟨ta, td⟩ := t
      simp only [Transaction.action] at ha
      subst ha
      rw [profitLoop_cons_sold]
      exact ih
  | case3 t ha s rest' hs ih =>
      obtain ⟨ta, td⟩ := t
      obtain ⟨sa, sd⟩ := s
      simp only [Transaction.action] at ha hs
      subst ha
      subst hs
      rw [profitLoop_cons_buy_sell]
      dsimp only
      constructor
      · intro d hd
        rcases List.mem_cons.mp hd with he | hm
        · subst he
          refine ⟨?_, ?_, ?_, ?_⟩ <;> simp [mkDetail]
        · exact ih.1 d hm
      · simp only [List.map_cons, List.sum_cons]
        rw [ih.2]
  | case4 t ha s rest' hs ih =>
      obtain ⟨ta, td⟩ := t
      obtain ⟨sa, sd⟩ := s
      simp only [Transaction.action] at ha hs
      subst ha
      have hsb : sa = .bought := by
        cases sa with
        | bought => rfl
        | sold => exact absurd rfl hs
      subst hsb
      rw [profitLoop_cons_buy_open]
      dsimp only
      constructor
      · intro d hd
        rcases List.mem_cons.mp hd with he | hm
        · subst he
          refine ⟨?_, ?_, ?_, ?_⟩ <;> simp [mkDetail]
        · exact ih.1 d hm
      · simp only [List.map_cons, List.sum_cons]
        rw [ih.2]
  | case5 t ha =>
      obtain ⟨ta, td⟩ := t
      simp only [Transaction.action] at ha
      subst ha
      rw [profitLoop_single_buy]
      dsimp only
      constructor
      · intro d hd
        rcases List.mem_cons.mp hd with he | hm
        · subst he
          refine ⟨?_, ?_, ?_, ?_⟩ <;> simp [mkDetail]
        · simp at hm
      · simp

/-- C4.  For every emitted buy/sell pair the purchase price is the override
exactly when it is present and strictly positive and otherwise the buy-date
NAV reference value; the selling price always equals purchase price plus
profit (it is derived, never read from input); profit is the NAV difference
(sell reference minus buy reference, independent of the override); and the
total profit is the sum of the per-pair profits. -/
theorem claim_C4_price_computation (asset : String) (ts : TimeSeries) (pp : Option ℚ)
    (evts : List Transaction) :
    (∀ d ∈ (calculate_profit_and_prices asset evts ts pp).transactions_detail,
      d.profit = d.sell_nav - d.buy_nav ∧
      d.selling_price = d.purchase_price + d.profit ∧
      d.buy_nav = navRefValue d.buy_date ts ∧
      d.purchase_price = (match pp with
        | some p => if 0 < p then p else d.buy_nav
        | none => d.buy_nav)) ∧
    (calculate_profit_and_prices asset evts ts pp).total_profit =
      ((calculate_profit_and_prices asset evts ts pp).transactions_detail.map
        (fun d => d.profit)).sum := by
  by_cases hne : ts.isEmpty
  · constructor
    · intro d hd
      simp [calculate_profit_and_prices, hne] at hd
    · simp [calculate_profit_and_prices, hne]
  · simp only [calculate_profit_and_prices, if_neg hne]
    exact profitLoop_fields ts pp evts

/-- Witness for C4 at a concrete run: one buy/sell pair over the two-point
NAV series, with a positive override 3; the evaluated detail shows purchase
price 3 (the override), profit 10 (NAV difference) and selling price 13. -/
theorem claim_C4_price_computation_witness :
    ((∀ d ∈ (calculate_profit_and_prices "a" [⟨.bought, 5⟩, ⟨.sold, 7⟩]
        [(7200, 10), (10080, 20)] (some 3)).transactions_detail,
      d.profit = d.sell_nav - d.buy_nav ∧
      d.selling_price = d.purchase_price + d.profit ∧
      d.buy_nav = navRefValue d.buy_date [(7200, 10), (10080, 20)] ∧
      d.purchase_price = (match (some (3 : ℚ)) with
        | some p => if 0 < p then p else d.buy_nav
        | none => d.buy_nav)) ∧
    (calculate_profit_and_prices "a" [⟨.bought, 5⟩, ⟨.sold, 7⟩]
        [(7200, 10), (10080, 20)] (some 3)).total_profit =
      ((calculate_profit_and_prices "a" [⟨.bought, 5⟩, ⟨.sold, 7⟩]
        [(7200, 10), (10080, 20)] (some 3)).transactions_detail.map
        (fun d => d.profit)).sum) ∧
    (calculate_profit_and_prices "a" [⟨.bought, 5⟩, ⟨.sold, 7⟩]
        [(7200, 10), (10080, 20)] (some 3)).transactions_detail.map
        (fun d => (d.buy_date, d.sell_date)) = [(5, 7)] :=
  ⟨claim_C4_price_computation "a" [(7200, 10), (10080, 20)] (some 3)
      [⟨.bought, 5⟩, ⟨.sold, 7⟩],
   by decide⟩

theorem profitLoop_all_sold (ts : TimeSeries) (pp : Option ℚ) :
    ∀ evts : List Transaction, (∀ e ∈ evts, e.action = .sold) →
      profitLoop ts pp evts = (0, []) := by
  intro evts
  induction evts with
  | nil => intro _; rfl
  | cons e rest ih =>
      intro hall
      obtain ⟨ea, ed⟩ := e
      have hea := hall ⟨ea, ed⟩ (by simp)
      simp only [Transaction.action] at hea
      subst hea
      rw [profitLoop_cons_sold]
      exact ih (fun x hx => hall x (List.mem_cons_of_mem _ hx))

/-- C10.  A `sold` event that is not consumed as the partner of an
immediately preceding `bought` is silently skipped by the valuation engine:
processing it produces no detail and contributes nothing; in particular an
event list consisting only of `sold` events yields total profit `0.0`, an
empty detail list and no error. -/
theorem claim_C10_unmatched_sold_skipped (asset : String) (ts : TimeSeries) (pp : Option ℚ)
    (h : ts ≠ []) :
    (∀ (d : Nat) (rest : List Transaction),
      calculate_profit_and_prices asset (⟨.sold, d⟩ :: rest) ts pp =
        calculate_profit_and_prices asset rest ts pp) ∧
    (∀ evts : List Transaction, (∀ e ∈ evts, e.action = .sold) →
      calculate_profit_and_prices asset evts ts pp = ⟨asset, 0, [], false⟩) := by
  have hne : ¬ ts.isEmpty := by
    cases ts with
    | nil => exact absurd rfl h
    | cons p l => simp
  constructor
  · intro d rest
    simp only [calculate_profit_and_prices, if_neg hne, profitLoop_cons_sold]
  · intro evts hall
    simp only [calculate_profit_and_prices, if_neg hne, profitLoop_all_sold ts pp evts hall]

/-- Witness for C10: a lone `sold` and an all-`sold` pair over a one-point
NAV series. -/
theorem claim_C10_unmatched_sold_skipped_witness :
    (calculate_profit_and_prices "a" [⟨.sold, 3⟩] [(7200, 10)] none =
      calculate_profit_and_prices "a" [] [(7200, 10)] none) ∧
    calculate_profit_and_prices "a" [⟨.sold, 1⟩, ⟨.sold, 2⟩] [(7200, 10)] none =
      ⟨"a", 0, [], false⟩ :=
  ⟨(claim_C10_unmatched_sold_skipped "a" [(7200, 10)] none (by simp)).1 3 [],
   (claim_C10_unmatched_sold_skipped "a" [(7200, 10)] none (by simp)).2
     [⟨.sold, 1⟩, ⟨.sold, 2⟩] (by decide)⟩

/-- Does `hay` start with `needle`? (helper for the substring test). -/
def startsWithSub : List Char → List Char → Bool
  | _, [] => true
  | [], _ :: _ => false
  | h :: hs, n :: ns => h == n && startsWithSub hs ns

/-- Substring containment on character lists. -/
def containsSub (hay needle : List Char) : Bool :=
  if startsWithSub hay needle then true
  else
    match hay with
    | [] => false
    | _ :: t => containsSub t needle

/-- Python's substring operator `needle in hay` on strings. -/
def pyIn (needle hay : String) : Bool := containsSub hay.toList needle.toList

/-- Python `str.lower()`: lower-case character by character (stated over the
character list so that it evaluates in the kernel). -/
def pyLower (s : String) : String := String.mk (s.toList.map Char.toLower)

/-- A column header: either a JSON object carrying `name`/`command` fields
(an absent field defaults to the empty string; the `name` field is passed
through `str`), or a bare value whose string form serves as both. -/
inductive Header where
  | hdict (name command : String)
  | hprim (s : String)
  deriving DecidableEq, Repr

/-- Embeds lines 72-78 of `comprehensive_asset_analysis.py` (and lines 12-17
of `analyze_volatility.py`): the lower-cased `(command, name)` pair of a
header; for a bare header the string form is used for both. -/
def headerCmdName : Header → String × String
  | .hdict n c => (pyLower c, pyLower n)
  | .hprim s => (pyLower s, pyLower s)

/-- The volatility condition of line 81: `"volatility" in cmd or
"volatility" in name`. -/
def volatilityMatch (h : Header) : Bool :=
  pyIn "volatility" (headerCmdName h).1 || pyIn "volatility" (headerCmdName h).2

/-- The interest-rate condition of line 85. -/
def interestMatch (h : Header) : Bool :=
  pyIn "interest" (headerCmdName h).1 || pyIn "interest" (headerCmdName h).2 ||
    pyIn "interest_rate" (headerCmdName h).1

/-- The purchase-price condition of line 89: `"purchase"` or `"buy"` in
command or name. -/
def purchaseMatch (h : Header) : Bool :=
  pyIn "purchase" (headerCmdName h).1 || pyIn "purchase" (headerCmdName h).2 ||
    pyIn "buy" (headerCmdName h).1 || pyIn "buy" (headerCmdName h).2

/-- The generic price condition of line 93: contains `"price"` and does not
contain `"purchase"` (note: `"buy"` is not excluded here). -/
def priceMatch (h : Header) : Bool :=
  (pyIn "price" (headerCmdName h).1 || pyIn "price" (headerCmdName h).2) &&
    !(pyIn "purchase" (headerCmdName h).1) && !(pyIn "purchase" (headerCmdName h).2)

/-- Python dict assignment `d[k] = v` on a string-keyed dict modelled as an
association list: an existing binding is updated in place, a new key is
appended at the end (insertion order is preserved). -/
def dictSetN (d : List (String × Nat)) (k : String) (v : Nat) : List (String × Nat) :=
  if d.any (fun q => q.1 == k) then
    d.map (fun q => if q.1 == k then (q.1, v) else q)
  else d ++ [(k, v)]

/-- Dict lookup on the index dict. -/
def dictLookupN (d : List (String × Nat)) (k : String) : Option Nat :=
  match d.find? (fun q => q.1 == k) with
  | some q => some q.2
  | none => none

/-- One header's worth of updates to `metric_indices` (lines 80-94): each
matching condition assigns the current index under the metric's key,
overwriting any earlier binding. -/
def metricStep (h : Header) (i : Nat) (d : List (String × Nat)) : List (String × Nat) :=
  let d1 := if volatilityMatch h then dictSetN d "volatility" i else d
  let d2 := if interestMatch h then dictSetN d1 "interest_rate" i else d1
  let d3 := if purchaseMatch h then dictSetN d2 "purchase_price" i else d2
  if priceMatch h then dictSetN d3 "price" i else d3

/-- The header scan of `extract_metrics_from_asset` from index `i`. -/
def metricIndicesFrom (i : Nat) (d : List (String × Nat)) : List Header → List (String × Nat)
  | [] => d
  | h :: rest => metricIndicesFrom (i + 1) (metricStep h i d) rest

/-- Embeds the `metric_indices` dict built by lines 71-94. -/
def metric_indices (headers : List Header) : List (String × Nat) :=
  metricIndicesFrom 0 [] headers

/-- The loop of `extract_volatility_index` from index `i`: returns on the
first matching header. -/
def volIndexFrom (i : Nat) : List Header → Option Nat
  | [] => none
  | h :: rest => if volatilityMatch h then some i else volIndexFrom (i + 1) rest

/-- Embeds `extract_volatility_index` of `analyze_volatility.py` (lines
9-20): the index of the first header whose lower-cased name or command
contains "volatility", else none. -/
def extract_volatility_index (headers : List Header) : Option Nat :=
  volIndexFrom 0 headers

/-- Spec-side resolver (§4.2): the index, counting from `i`, of the FIRST
header satisfying the predicate. -/
def firstMatchFrom (p : Header → Bool) (i : Nat) : List Header → Option Nat
  | [] => none
  | h :: rest => if p h then some i else firstMatchFrom p (i + 1) rest

/-- The index, counting from `i`, of the LAST header satisfying the
predicate — what repeated dict assignment leaves behind. -/
def lastMatchFrom (p : Header → Bool) (i : Nat) : List Header → Option Nat
  | [] => none
  | h :: rest =>
      match lastMatchFrom p (i + 1) rest with
      | some j => some j
      | none => if p h then some i else none

theorem dictLookupN_cons_eq (q : String × Nat) (rest : List (String × Nat)) (k : String)
    (h : q.1 = k) : dictLookupN (q :: rest) k = some q.2 := by
  unfold dictLookupN
  rw [List.find?_cons_of_pos _ (by simp [h])]

theorem dictLookupN_cons_ne (q : String × Nat) (rest : List (String × Nat)) (k : String)
    (h : q.1 ≠ k) : dictLookupN (q :: rest) k = dictLookupN rest k := by
  unfold dictLookupN
  rw [List.find?_cons_of_neg _ (by simp [h])]

theorem dictLookupN_set_eq (d : List (String × Nat)) (k : String) (v : Nat) :
    dictLookupN (dictSetN d k v) k = some v := by
  induction d with
  | nil => simp [dictSetN, dictLookupN]
  | cons q rest ih =>
      by_cases hq : q.1 = k
      · have hset : dictSetN (q :: rest) k v =
            (q.1, v) :: rest.map (fun x => if x.1 == k then (x.1, v) else x) := by
          simp [dictSetN, List.any_cons, hq]
        rw [hset, dictLookupN_cons_eq (q.1, v) _ _ hq]
      · by_cases hr : rest.any (fun x => x.1 == k)
        · have hset : dictSetN (q :: rest) k v =
              q :: rest.map (fun x => if x.1 == k then (x.1, v) else x) := by
            simp [dictSetN, List.any_cons, hq, hr]
          have hset' : dictSetN rest k v =
              rest.map (fun x => if x.1 == k then (x.1, v) else x) := by
            simp [dictSetN, hr]
          rw [hset, dictLookupN_cons_ne _ _ _ hq, ← hset']
          exact ih
        · have hset : dictSetN (q :: rest) k v = q :: (rest ++ [(k, v)]) := by
            simp [dictSetN, List.any_cons, hq, hr]
          have hset' : dictSetN rest k v = rest ++ [(k, v)] := by
            simp [dictSetN, hr]
          rw [hset, dictLookupN_cons_ne _ _ _ hq, ← hset']
          exact ih

theorem dictLookupN_map_ne (d : List (String × Nat)) (k k' : String) (v : Nat)
    (h : k' ≠ k) :
    dictLookupN (d.map (fun x => if x.1 == k then (x.1, v) else x)) k' =
      dictLookupN d k' := by
  induction d with
  | nil => rfl
  | cons q rest ih =>
      simp only [List.map_cons]
      have hfst : (if q.1 == k then (q.1, v) else q).1 = q.1 := by
        by_cases hc : q.1 = k
        · simp [hc]
        · simp [hc]
      by_cases hq : q.1 = k'
      · have hne : q.1 ≠ k := fun hc => h ((hq ▸ hc : k' = k))
        have hhead : (if q.1 == k then (q.1, v) else q) = q := by simp [hne]
        rw [hhead, dictLookupN_cons_eq _ _ _ hq, dictLookupN_cons_eq _ _ _ hq]
      · rw [dictLookupN_cons_ne _ _ _ (by rw [hfst]; exact hq),
            dictLookupN_cons_ne _ _ _ hq]
        exact ih

theorem dictLookupN_append_ne (d : List (String × Nat)) (k : String) (v : Nat)
    (k' : String) (h : k' ≠ k) :
    dictLookupN (d ++ [(k, v)]) k' = dictLookupN d k' := by
  induction d with
  | nil =>
      simp only [List.nil_append]
      rw [dictLookupN_cons_ne _ _ _ (Ne.symm h)]
  | cons q rest ih =>
      by_cases hq : q.1 = k'
      · rw [List.cons_append, dictLookupN_cons_eq _ _ _ hq, dictLookupN_cons_eq _ _ _ hq]
      · rw [List.cons_append, dictLookupN_cons_ne _ _ _ hq, dictLookupN_cons_ne _ _ _ hq]
        exact ih

theorem dictLookupN_set_ne (d : List (String × Nat)) (k : String) (v : Nat)
    (k' : String) (h : k' ≠ k) :
    dictLookupN (dictSetN d k v) k' = dictLookupN d k' := by
  unfold dictSetN
  split
  · exact dictLookupN_map_ne d k k' v h
  · exact dictLookupN_append_ne d k v k' h

theorem dictLookupN_condSet_eq (c : Bool) (d : List (String × Nat)) (k : String) (v : Nat) :
    dictLookupN (if c then dictSetN d k v else d) k =
      if c then some v else dictLookupN d k := by
  cases c with
  | false => rfl
  | true => exact dictLookupN_set_eq d k v

theorem dictLookupN_condSet_ne (c : Bool) (d : List (String × Nat)) (k : String) (v : Nat)
    (k' : String) (h : k' ≠ k) :
    dictLookupN (if c then dictSetN d k v else d) k' = dictLookupN d k' := by
  cases c with
  | false => rfl
  | true => exact dictLookupN_set_ne d k v k' h

theorem metricStep_vol (h : Header) (i : Nat) (d : List (String × Nat)) :
    dictLookupN (metricStep h i d) "volatility" =
      if volatilityMatch h then some i else dictLookupN d "volatility" := by
  simp only [metricStep]
  rw [dictLookupN_condSet_ne (priceMatch h) _ _ _ _ (by decide),
      dictLookupN_condSet_ne (purchaseMatch h) _ _ _ _ (by decide),
      dictLookupN_condSet_ne (interestMatch h) _ _ _ _ (by decide),
      dictLookupN_condSet_eq]

theorem metricStep_ir (h : Header) (i : Nat) (d : List (String × Nat)) :
    dictLookupN (metricStep h i d) "interest_rate" =
      if interestMatch h then some i else dictLookupN d "interest_rate" := by
  simp only [metricStep]
  rw [dictLookupN_condSet_ne (priceMatch h) _ _ _ _ (by decide),
      dictLookupN_condSet_ne (purchaseMatch h) _ _ _ _ (by decide),
      dictLookupN_condSet_eq,
      dictLookupN_condSet_ne (volatilityMatch h) _ _ _ _ (by decide)]

theorem metricStep_pp (h : Header) (i : Nat) (d : List (String × Nat)) :
    dictLookupN (metricStep h i d) "purchase_price" =
      if purchaseMatch h then some i else dictLookupN d "purchase_price" := by
  simp only [metricStep]
  rw [dictLookupN_condSet_ne (priceMatch h) _ _ _ _ (by decide),
      dictLookupN_condSet_eq,
      dictLookupN_condSet_ne (interestMatch h) _ _ _ _ (by decide),
      dictLookupN_condSet_ne (volatilityMatch h) _ _ _ _ (by decide)]

theorem metricStep_price (h : Header) (i : Nat) (d : List (String × Nat)) :
    dictLookupN (metricStep h i d) "price" =
      if priceMatch h then some i else dictLookupN d "price" := by
  simp only [metricStep]
  rw [dictLookupN_condSet_eq,
      dictLookupN_condSet_ne (purchaseMatch h) _ _ _ _ (by decide),
      dictLookupN_condSet_ne (interestMatch h) _ _ _ _ (by decide),
      dictLookupN_condSet_ne (volatilityMatch h) _ _ _ _ (by decide)]

theorem metricIndicesFrom_lookup (key : String) (p : Header → Bool)
    (hstep : ∀ h i d, dictLookupN (metricStep h i d) key =
      if p h then some i else dictLookupN d key) :
    ∀ (hs : List Header) (i : Nat) (d : List (String × Nat)),
      dictLookupN (metricIndicesFrom i d hs) key =
        match lastMatchFrom p i hs with
        | some j => some j
        | none => dictLookupN d key := by
  intro hs
  induction hs with
  | nil => intro i d; rfl
  | cons h rest ih =>
      intro i d
      simp only [metricIndicesFrom, lastMatchFrom]
      rw [ih (i + 1) (metricStep h i d)]
      cases hlast : lastMatchFrom p (i + 1) rest with
      | some j => rfl
      | none =>
          rw [hstep]
          cases hp : p h with
          | true => rfl
          | false => rfl

theorem volIndexFrom_eq_firstMatch (hs : List Header) :
    ∀ i : Nat, volIndexFrom i hs = firstMatchFrom volatilityMatch i hs := by
  induction hs with
  | nil => intro i; rfl
  | cons h rest ih => intro i; simp only [volIndexFrom, firstMatchFrom, ih]

/-- C5 counterexample: both headers contain "volatility", so first-match
binding would give index 0, but the code stores index 1 — the later
matching header rebinds the metric. -/
theorem claim_C5_counterexample :
    dictLookupN (metric_indices [.hdict "" "volatility", .hdict "" "volatility_3m"])
        "volatility" = some 1 ∧
      volatilityMatch (.hdict "" "volatility") = true ∧
      volatilityMatch (.hdict "" "volatility_3m") = true := by decide

/-- C5 (amended).  Binding policy: `extract_volatility_index` of
`analyze_volatility.py` binds to the FIRST header matching the volatility
predicate, while the multi-target resolver of `extract_metrics_from_asset`
binds every requested metric to the LAST matching header (each later match
overwrites the stored index), for every header list. -/
theorem claim_C5_header_binding_amended (headers : List Header) :
    extract_volatility_index headers = firstMatchFrom volatilityMatch 0 headers ∧
    dictLookupN (metric_indices headers) "volatility" =
      lastMatchFrom volatilityMatch 0 headers ∧
    dictLookupN (metric_indices headers) "interest_rate" =
      lastMatchFrom interestMatch 0 headers ∧
    dictLookupN (metric_indices headers) "purchase_price" =
      lastMatchFrom purchaseMatch 0 headers ∧
    dictLookupN (metric_indices headers) "price" =
      lastMatchFrom priceMatch 0 headers := by
  refine ⟨volIndexFrom_eq_firstMatch headers 0, ?_, ?_, ?_, ?_⟩
  · rw [metric_indices, metricIndicesFrom_lookup "volatility" volatilityMatch
        metricStep_vol headers 0 []]
    cases lastMatchFrom volatilityMatch 0 headers with
    | some j => rfl
    | none => rfl
  · rw [metric_indices, metricIndicesFrom_lookup "interest_rate" interestMatch
        metricStep_ir headers 0 []]
    cases lastMatchFrom interestMatch 0 headers with
    | some j => rfl
    | none => rfl
  · rw [metric_indices, metricIndicesFrom_lookup "purchase_price" purchaseMatch
        metricStep_pp headers 0 []]
    cases lastMatchFrom purchaseMatch 0 headers with
    | some j => rfl
    | none => rfl
  · rw [metric_indices, metricIndicesFrom_lookup "price" priceMatch
        metricStep_price headers 0 []]
    cases lastMatchFrom priceMatch 0 headers with
    | some j => rfl
    | none => rfl

/-- C6 counterexample: the header command "buy_price" satisfies the
purchase-price predicate (through "buy") and is nevertheless bound by the
generic price metric, because the code's negative condition excludes only
"purchase". -/
theorem claim_C6_counterexample :
    purchaseMatch (.hdict "" "buy_price") = true ∧
    priceMatch (.hdict "" "buy_price") = true ∧
    dictLookupN (metric_indices [.hdict "" "buy_price"]) "price" = some 0 ∧
    dictLookupN (metric_indices [.hdict "" "buy_price"]) "purchase_price" = some 0 := by
  decide

/-- C6 (amended).  The generic price metric matches exactly the headers
whose lower-cased command or name contains "price" while neither contains
"purchase"; matching the purchase predicate through "buy" does not exclude a
header.  On the spec's example the resolution is price → index 1,
purchase_price → index 0. -/
theorem claim_C6_price_exclusion_amended (n c : String) :
    (priceMatch (.hdict n c) = true ↔
      ((pyIn "price" (pyLower c) || pyIn "price" (pyLower n)) = true ∧
        pyIn "purchase" (pyLower c) = false ∧ pyIn "purchase" (pyLower n) = false)) ∧
    dictLookupN (metric_indices [.hdict "" "purchase_price", .hdict "" "price"])
        "price" = some 1 ∧
    dictLookupN (metric_indices [.hdict "" "purchase_price", .hdict "" "price"])
        "purchase_price" = some 0 := by
  refine ⟨?_, by decide, by decide⟩
  simp only [priceMatch, headerCmdName]
  cases h1 : pyIn "price" (pyLower c) <;> cases h2 : pyIn "price" (pyLower n) <;>
    cases h3 : pyIn "purchase" (pyLower c) <;> cases h4 : pyIn "purchase" (pyLower n) <;>
    simp

/-- A JSON-shaped Python value as relevant to the cell logic: None, bool,
int, float, string, list and dict (string-keyed with unique keys, as
produced by `json.load`). -/
inductive PyVal where
  | pynone
  | pybool (b : Bool)
  | pyint (n : Int)
  | pynum (q : ℚ)
  | pystr (s : String)
  | pylist (l : List PyVal)
  | pydict (entries : List (String × PyVal))

/-- Python `dict.get(k)` on a JSON dict (unique keys, so the first binding
is the binding). -/
def pyDictGet (k : String) : List (String × PyVal) → Option PyVal
  | [] => none
  | (k', v) :: rest => if k' = k then some v else pyDictGet k rest

/-- Embeds `isinstance(x, (int, float))`; Python `bool` is a subclass of
`int`, so booleans count as numeric. -/
def isNum : PyVal → Bool
  | .pyint _ => true
  | .pynum _ => true
  | .pybool _ => true
  | _ => false

/-- Embeds `x is None`. -/
def isNone : PyVal → Bool
  | .pynone => true
  | _ => false

/-- Embeds `'T' in sample_key` (stated over the character list so that it
evaluates in the kernel). -/
def containsT (s : String) : Bool := s.toList.any (fun ch => ch == 'T')

/-- Embeds `get_cell_value` of `comprehensive_asset_analysis.py` (lines
58-62; `analyze_volatility.py` lines 32-35 inline the same logic): for a
dict cell, `rawValue` when present and not None, else `value` (None when
absent); a bare cell is returned as-is. -/
def get_cell_value (cell : PyVal) : PyVal :=
  match cell with
  | .pydict fields =>
      match pyDictGet "rawValue" fields with
      | some v => if isNone v then (pyDictGet "value" fields).getD .pynone else v
      | none => (pyDictGet "value" fields).getD .pynone
  | c => c

/-- The time-series shape test shared by `extract_asset_time_series`
(`analyze_asset_buys_sells.py` lines 80-88) and the collection loops of
`comprehensive_asset_analysis.py` (lines 104-112 and 357-366): a dict cell
whose `rawValue` is a non-empty dict whose FIRST key (`next(iter(...))`) is
a non-empty string containing the letter T and whose first value is
numeric; on success the whole `rawValue` dict is returned.  No other entry
is inspected. -/
def seriesOfCell (v : PyVal) : Option (List (String × PyVal)) :=
  match v with
  | .pydict fields =>
      match pyDictGet "rawValue" fields with
      | some (.pydict raw) =>
          match raw with
          | (k, val) :: _ => if k ≠ "" ∧ containsT k ∧ isNum val then some raw else none
          | [] => none
      | _ => none
  | _ => none

/-- Embeds `extract_asset_time_series` of `analyze_asset_buys_sells.py`
(lines 76-90): the `rawValue` of the first cell of the `values` list that
passes the shape test; None when no cell passes. -/
def extract_asset_time_series : List PyVal → Option (List (String × PyVal))
  | [] => none
  | c :: rest =>
      match seriesOfCell c with
      | some raw => some raw
      | none => extract_asset_time_series rest

/-- C8 counterexample: a `rawValue` dict whose first entry looks like a time
series but whose second entry has a non-ISO key ("oops", no letter T) and a
non-numeric value ("x") is still returned whole — the code samples only the
first entry, so the claim's "all keys parse and all values are numeric"
condition is not what the code checks. -/
theorem claim_C8_counterexample :
    extract_asset_time_series
        [.pydict [("rawValue",
           .pydict [("2025-01-01T00:00:00", .pynum 1), ("oops", .pystr "x")])]] =
      some [("2025-01-01T00:00:00", .pynum 1), ("oops", .pystr "x")] ∧
    isNum (.pystr "x") = false ∧
    containsT "oops" = false := by
  refine ⟨?_, rfl, by decide⟩
  rfl

/-- C8 (amended).  Time-series extraction returns the `rawValue` of the
first cell that is a mapping whose `rawValue` is a non-empty mapping whose
FIRST key is a non-empty string containing the letter T and whose FIRST
value is numeric (later entries are not checked); every other shape of cell
or `rawValue` yields null, and the whole-list extraction yields null exactly
when every cell fails the test. -/
theorem claim_C8_series_shape_amended (values : List PyVal) (r : List (String × PyVal)) :
    (extract_asset_time_series values = some r → ∃ c ∈ values, seriesOfCell c = some r) ∧
    (extract_asset_time_series values = none ↔ ∀ c ∈ values, seriesOfCell c = none) ∧
    (∀ (fields raw : List (String × PyVal)) (k : String) (v : PyVal)
        (rest : List (String × PyVal)),
      pyDictGet "rawValue" fields = some (.pydict raw) → raw = (k, v) :: rest →
      seriesOfCell (.pydict fields) =
        if k ≠ "" ∧ containsT k ∧ isNum v then some raw else none) ∧
    (∀ c : PyVal, seriesOfCell c ≠ none →
      ∃ (fields raw : List (String × PyVal)), c = .pydict fields ∧
        pyDictGet "rawValue" fields = some (.pydict raw) ∧ seriesOfCell c = some raw) := by
  refine ⟨?_, ?_, ?_, ?_⟩
  · induction values with
    | nil => intro h; simp [extract_asset_time_series] at h
    | cons c rest ih =>
        intro h
        simp only [extract_asset_time_series] at h
        cases hc : seriesOfCell c with
        | some raw =>
            rw [hc] at h
            exact ⟨c, by simp, by rw [hc]; exact h⟩
        | none =>
            rw [hc] at h
            obtain ⟨c', hc'mem, hc'⟩ := ih h
            exact ⟨c', List.mem_cons_of_mem _ hc'mem, hc'⟩
  · induction values with
    | nil => simp [extract_asset_time_series]
    | cons c rest ih =>
        simp only [extract_asset_time_series]
        cases hc : seriesOfCell c with
        | some raw =>
            simp only []
            constructor
            · intro h; exact absurd h (by simp)
            · intro h
              have := h c (by simp)
              rw [hc] at this
              exact absurd this (by simp)
        | none =>
            simp only []
            rw [ih]
            constructor
            · intro h c' hc'
              rcases List.mem_cons.mp hc' with he | hm
              · rw [he]; exact hc
              · exact h c' hm
            · intro h c' hc'
              exact h c' (List.mem_cons_of_mem _ hc')
  · intro fields raw k v rest hget hraw
    simp only [seriesOfCell, hget, hraw]
  · intro c hc
    match c with
    | .pynone => exact absurd rfl hc
    | .pybool b => exact absurd rfl hc
    | .pyint n => exact absurd rfl hc
    | .pynum q => exact absurd rfl hc
    | .pystr s => exact absurd rfl hc
    | .pylist l => exact absurd rfl hc
    | .pydict fields =>
        refine ⟨fields, ?_⟩
        cases hget : pyDictGet "rawValue" fields with
        | none => exact absurd (by simp [seriesOfCell, hget]) hc
        | some rv =>
            match rv with
            | .pynone => exact absurd (by simp [seriesOfCell, hget]) hc
            | .pybool b => exact absurd (by simp [seriesOfCell, hget]) hc
            | .pyint n => exact absurd (by simp [seriesOfCell, hget]) hc
            | .pynum q => exact absurd (by simp [seriesOfCell, hget]) hc
            | .pystr s => exact absurd (by simp [seriesOfCell, hget]) hc
            | .pylist l => exact absurd (by simp [seriesOfCell, hget]) hc
            | .pydict raw =>
                refine ⟨raw, rfl, rfl, ?_⟩
                match hraw : raw with
                | [] => exact absurd (by simp [seriesOfCell, hget, hraw]) hc
                | (k, v) :: rest =>
                    by_cases hcond : k ≠ "" ∧ containsT k ∧ isNum v
                    · simp [seriesOfCell, hget, hcond]
                    · exact absurd (by simp [seriesOfCell, hget, hcond]) hc

/-- Witness for C8 (amended) at concrete cells: a well-shaped cell is found
and an ill-shaped cell list yields the all-fail characterization. -/
theorem claim_C8_series_shape_amended_witness :
    (∃ c ∈ [PyVal.pydict [("rawValue", .pydict [("2025-01-01T00:00:00", .pynum 1)])]],
      seriesOfCell c = some [("2025-01-01T00:00:00", .pynum 1)]) ∧
    (∀ c ∈ [PyVal.pystr "x"], seriesOfCell c = none) :=
  ⟨(claim_C8_series_shape_amended
      [PyVal.pydict [("rawValue", .pydict [("2025-01-01T00:00:00", .pynum 1)])]]
      [("2025-01-01T00:00:00", .pynum 1)]).1 rfl,
   (claim_C8_series_shape_amended [PyVal.pystr "x"] []).2.1.mp rfl⟩

mutual
/-- One line of the report tree: `name` (a missing/empty name is the empty
string — Python truthiness), the positional `values` cells and the
`subLines`. -/
inductive RNode where
  | mk (name : String) (values : List PyVal) (children : RForest)
/-- A list of report lines (a `subLines` array). -/
inductive RForest where
  | nil
  | cons (head : RNode) (tail : RForest)
end

/-- The `name` field of a line. -/
def RNode.name : RNode → String
  | .mk n _ _ => n

/-- The `values` field of a line. -/
def RNode.values : RNode → List PyVal
  | .mk _ v _ => v

mutual
/-- The pre-order node sequence of a tree: the node itself, then its
children in order. -/
def preorderNode : RNode → List RNode
  | .mk n v c => .mk n v c :: preorderForest c
/-- The pre-order node sequence of a forest. -/
def preorderForest : RForest → List RNode
  | .nil => []
  | .cons h t => preorderNode h ++ preorderForest t
end

mutual
/-- Tree depth (nodes on the longest root-to-leaf path). -/
def depthNode : RNode → Nat
  | .mk _ _ c => 1 + depthForest c
/-- Depth of a forest. -/
def depthForest : RForest → Nat
  | .nil => 0
  | .cons h t => max (depthNode h) (depthForest t)
end

mutual
/-- Embeds `walk_lines` of `analyze_volatility.py` (lines 23-41) on one
line: when the line has a (truthy) name, the volatility index is not None
and in range, and the cell value is not None, one record is appended; then
the `subLines` are walked. -/
def walkVolNode (vidx : Option Nat) : RNode → List (String × PyVal)
  | .mk name values children =>
      (match vidx with
       | some i =>
           if name ≠ "" ∧ i < values.length then
             let v := get_cell_value (values.getD i .pynone)
             if isNone v then [] else [(name, v)]
           else []
       | none => []) ++ walkVolForest vidx children
/-- The same walk over a forest of lines. -/
def walkVolForest (vidx : Option Nat) : RForest → List (String × PyVal)
  | .nil => []
  | .cons h t => walkVolNode vidx h ++ walkVolForest vidx t
end

/-- Spec-side description of the record one line contributes in
`analyze_volatility`: defined only for named lines whose volatility cell
yields a non-None value. -/
def volRecordOf (vidx : Option Nat) (n : RNode) : Option (String × PyVal) :=
  match n, vidx with
  | .mk name values _, some i =>
      if name ≠ "" ∧ i < values.length then
        let v := get_cell_value (values.getD i .pynone)
        if isNone v then none else some (name, v)
      else none
  | _, none => none

/-- Association-list lookup for string-keyed Python dicts. -/
def assocGet {α : Type} (k : String) : List (String × α) → Option α
  | [] => none
  | (k', v) :: rest => if k' = k then some v else assocGet k rest

/-- Python dict assignment `d[k] = v`: update in place, or append a new
binding (insertion order preserved). -/
def assocSet {α : Type} (d : List (String × α)) (k : String) (v : α) :
    List (String × α) :=
  if d.any (fun q => q.1 == k) then
    d.map (fun q => if q.1 == k then (q.1, v) else q)
  else d ++ [(k, v)]

/-- The value stored under one key of the metrics dict of
`extract_metrics_from_asset`: an extracted cell value, or the `time_series`
sub-dict.  The sub-dict's keys are the cell's `command` value (an arbitrary
JSON value) or the cell's index; Python dict assignment is modelled by
appending, with lookups reading the last binding. -/
inductive MetricEntry where
  | cell (v : PyVal)
  | series (entries : List ((PyVal ⊕ Nat) × List (String × PyVal)))

/-- Embeds lines 103-112 of `comprehensive_asset_analysis.py` starting at
cell index `idx`: every cell passing the time-series shape test contributes
its `rawValue` under its `command` value (default the string
`"value_<idx>"`) and under its index. -/
def tsCollectFrom (idx : Nat) : List PyVal → List ((PyVal ⊕ Nat) × List (String × PyVal))
  | [] => []
  | v :: rest =>
      (match seriesOfCell v with
       | some raw =>
           let cmd := match v with
             | .pydict fields =>
                 (pyDictGet "command" fields).getD (.pystr ("value_" ++ toString idx))
             | _ => .pystr ("value_" ++ toString idx)
           [(Sum.inl cmd, raw), (Sum.inr idx, raw)]
       | none => []) ++ tsCollectFrom (idx + 1) rest

/-- Embeds lines 96-100: for each resolved metric index that is within
range, store the extracted cell value under the metric's name, in the
insertion order of `metric_indices`. -/
def metricsOfIndices (values : List PyVal) (mi : List (String × Nat)) :
    List (String × MetricEntry) :=
  mi.foldl
    (fun acc q =>
      if q.2 < values.length then
        assocSet acc q.1 (.cell (get_cell_value (values.getD q.2 .pynone)))
      else acc)
    []

/-- Embeds `extract_metrics_from_asset` (lines 65-116): the scalar metric
entries followed by the unconditional `time_series` entry. -/
def extract_metrics_from_asset (values : List PyVal) (headers : List Header) :
    List (String × MetricEntry) :=
  assocSet (metricsOfIndices values (metric_indices headers)) "time_series"
    (.series (tsCollectFrom 0 values))

/-- Is a stored entry Python `None`? (`assets_dict[name][key] is None`). -/
def entryIsNone : MetricEntry → Bool
  | .cell v => isNone v
  | .series _ => false

/-- Embeds the merge of lines 136-139: each key of the new metrics fills the
stored record only when absent there or stored as None. -/
def mergeMetrics (old new : List (String × MetricEntry)) :
    List (String × MetricEntry) :=
  new.foldl
    (fun acc q =>
      match assocGet q.1 acc with
      | none => assocSet acc q.1 q.2
      | some ov => if entryIsNone ov then assocSet acc q.1 q.2 else acc)
    old

/-- The accumulated per-asset dict of `extract_all_assets_with_metrics`. -/
abbrev AssetsDict := List (String × List (String × MetricEntry))

/-- Embeds lines 132-139: store a new asset record, or merge into the
existing record of the same name. -/
def addAsset (acc : AssetsDict) (name : String) (m : List (String × MetricEntry)) :
    AssetsDict :=
  match assocGet name acc with
  | none => assocSet acc name m
  | some old => assocSet acc name (mergeMetrics old m)

mutual
/-- Embeds `walk_lines` of `extract_all_assets_with_metrics` (lines 123-144)
on one line: a named line contributes its metrics (when the metrics dict is
truthy, which it always is), then the `subLines` are walked. -/
def walkAssetsNode (headers : List Header) (acc : AssetsDict) : RNode → AssetsDict
  | .mk name values children =>
      walkAssetsForest headers
        (if name ≠ "" then
          if (extract_metrics_from_asset values headers).isEmpty then acc
          else addAsset acc name (extract_metrics_from_asset values headers)
        else acc)
        children
/-- The same walk over a forest of lines. -/
def walkAssetsForest (headers : List Header) (acc : AssetsDict) : RForest → AssetsDict
  | .nil => acc
  | .cons h t => walkAssetsForest headers (walkAssetsNode headers acc h) t
end

/-- Embeds `extract_all_assets_with_metrics` (starting from
`resultLine.subLines`). -/
def extract_all_assets_with_metrics (headers : List Header) (root : RForest) :
    AssetsDict :=
  walkAssetsForest headers [] root

/-- Spec-side step: what one pre-order node contributes to the assets dict. -/
def assetStep (headers : List Header) (acc : AssetsDict) (n : RNode) : AssetsDict :=
  if n.name ≠ "" then
    if (extract_metrics_from_asset n.values headers).isEmpty then acc
    else addAsset acc n.name (extract_metrics_from_asset n.values headers)
  else acc

theorem walkVolNode_record (vidx : Option Nat) (name : String) (values : List PyVal)
    (children : RForest) :
    walkVolNode vidx (.mk name values children) =
      (match volRecordOf vidx (.mk name values children) with
       | some r => [r]
       | none => []) ++ walkVolForest vidx children := by
  cases vidx with
  | none => rfl
  | some i =>
      by_cases hc : name ≠ "" ∧ i < values.length
      · simp only [walkVolNode, volRecordOf, if_pos hc]
        by_cases hn : isNone (get_cell_value (values.getD i .pynone)) = true
        · rw [if_pos hn, if_pos hn]
        · rw [if_neg hn, if_neg hn]
      · simp only [walkVolNode, volRecordOf, if_neg hc]

mutual
theorem walkVolNode_eq (vidx : Option Nat) (n : RNode) :
    walkVolNode vidx n = (preorderNode n).filterMap (volRecordOf vidx) := by
  match n with
  | .mk name values children =>
      rw [walkVolNode_record]
      simp only [preorderNode, List.filterMap_cons]
      cases hr : volRecordOf vidx (.mk name values children) with
      | some r =>
          simp only [List.cons_append, List.nil_append]
          rw [walkVolForest_eq vidx children]
      | none =>
          simp only [List.nil_append]
          rw [walkVolForest_eq vidx children]
theorem walkVolForest_eq (vidx : Option Nat) (f : RForest) :
    walkVolForest vidx f = (preorderForest f).filterMap (volRecordOf vidx) := by
  match f with
  | .nil => rfl
  | .cons h t =>
      simp only [walkVolForest, preorderForest, List.filterMap_append]
      rw [walkVolNode_eq vidx h, walkVolForest_eq vidx t]
end

mutual
theorem walkAssetsNode_eq (headers : List Header) (acc : AssetsDict) (n : RNode) :
    walkAssetsNode headers acc n = (preorderNode n).foldl (assetStep headers) acc := by
  match n with
  | .mk name values children =>
      simp only [walkAssetsNode, preorderNode, List.foldl_cons]
      rw [walkAssetsForest_eq]
      congr 1
theorem walkAssetsForest_eq (headers : List Header) (acc : AssetsDict) (f : RForest) :
    walkAssetsForest headers acc f = (preorderForest f).foldl (assetStep headers) acc := by
  match f with
  | .nil => rfl
  | .cons h t =>
      simp only [walkAssetsForest, preorderForest, List.foldl_append]
      rw [walkAssetsNode_eq, walkAssetsForest_eq]
end

theorem assocSet_isEmpty_false {α : Type} (d : List (String × α)) (k : String) (v : α) :
    (assocSet d k v).isEmpty = false := by
  unfold assocSet
  split
  · rename_i hcond
    cases d with
    | nil => simp at hcond
    | cons q rest => rfl
  · cases d with
    | nil => rfl
    | cons q rest => rfl

theorem extract_metrics_nonempty (values : List PyVal) (headers : List Header) :
    (extract_metrics_from_asset values headers).isEmpty = false :=
  assocSet_isEmpty_false _ _ _

/-- C7 counterexample: a tree with one named line ("A") whose `values` list
is empty emits no record in `analyze_volatility`'s walk (the volatility cell
is out of range), although the claim requires a record for every node with a
non-empty name. -/
theorem claim_C7_counterexample :
    walkVolForest (some 0) (.cons (.mk "A" [] .nil) .nil) = [] ∧ ("A" : String) ≠ "" :=
  ⟨rfl, by decide⟩

/-- C7 (amended).  Both walks visit the nodes in pre-order, each exactly
once: `analyze_volatility`'s walk emits the records of exactly those named
pre-order nodes whose volatility cell is in range and yields a non-None
value, and `extract_all_assets_with_metrics` folds its store-or-merge step
over exactly the pre-order nodes (a record is created for every named node,
since the metrics dict is never empty); a node with an empty name
contributes nothing in either walk but its children are still traversed. -/
theorem claim_C7_walker_amended (vidx : Option Nat) (headers : List Header) (f : RForest) :
    walkVolForest vidx f = (preorderForest f).filterMap (volRecordOf vidx) ∧
    extract_all_assets_with_metrics headers f =
      (preorderForest f).foldl (assetStep headers) [] ∧
    (∀ values, (extract_metrics_from_asset values headers).isEmpty = false) ∧
    (∀ n : RNode, n.name = "" →
      volRecordOf vidx n = none ∧ ∀ acc, assetStep headers acc n = acc) := by
  refine ⟨walkVolForest_eq vidx f, walkAssetsForest_eq headers [] f,
    fun values => extract_metrics_nonempty values headers, ?_⟩
  intro n hn
  constructor
  · cases n with
    | mk name values children =>
        simp only [RNode.name] at hn
        cases vidx with
        | none => rfl
        | some i => simp [volRecordOf, hn]
  · intro acc
    simp [assetStep, hn]

/-- Witness for C7 (amended) at a concrete tree: one named node with a
numeric cell, and the empty-name no-record fact at a concrete node. -/
theorem claim_C7_walker_amended_witness :
    walkVolForest (some 0) (.cons (.mk "X" [.pynum 1] .nil) .nil) =
      (preorderForest (.cons (.mk "X" [.pynum 1] .nil) .nil)).filterMap
        (volRecordOf (some 0)) ∧
    volRecordOf (some 0) (.mk "" [] .nil) = none :=
  ⟨(claim_C7_walker_amended (some 0) [] (.cons (.mk "X" [.pynum 1] .nil) .nil)).1,
   ((claim_C7_walker_amended (some 0) [] (.cons (.mk "X" [.pynum 1] .nil) .nil)).2.2.2
      (.mk "" [] .nil) rfl).1⟩

/-- A chain tree of unnamed grouping nodes of the given depth with one named
leaf at the bottom: traversing it to completion shows the walk reaches any
depth. -/
def deepChain : Nat → RForest
  | 0 => .cons (.mk "leaf" [] .nil) .nil
  | n + 1 => .cons (.mk "" [] (deepChain n)) .nil

theorem depth_deepChain (n : Nat) : depthForest (deepChain n) = n + 1 := by
  induction n with
  | zero => rfl
  | succ n ih =>
      simp only [deepChain, depthForest, depthNode, ih]
      omega

theorem walkAssets_deepChain (headers : List Header) (n : Nat) :
    ∀ acc, walkAssetsForest headers acc (deepChain n) =
      addAsset acc "leaf" (extract_metrics_from_asset [] headers) := by
  induction n with
  | zero =>
      intro acc
      simp only [deepChain, walkAssetsForest, walkAssetsNode]
      rw [if_pos (show ("leaf" : String) ≠ "" from by decide)]
      simp only [extract_metrics_nonempty]
      simp
  | succ n ih =>
      intro acc
      simp only [deepChain, walkAssetsForest, walkAssetsNode]
      rw [if_neg (by simp)]
      exact ih acc

/-- C9 counterexample: the traversal has no depth guard — on a tree of depth
10001 (beyond the claim's 10000 bound) `extract_all_assets_with_metrics`
returns normally with the leaf's record instead of failing with any
`MalformedTree` condition. -/
theorem claim_C9_counterexample :
    10000 < depthForest (deepChain 10000) ∧
    extract_all_assets_with_metrics [] (deepChain 10000) =
      [("leaf", extract_metrics_from_asset [] [])] := by
  constructor
  · rw [depth_deepChain]
    omega
  · rw [extract_all_assets_with_metrics, walkAssets_deepChain]
    simp [addAsset, assocGet, assocSet]

/-- C9 (amended).  Tree traversal imposes no depth bound at all: a chain of
any depth — including depths beyond 10,000 — is traversed to its leaf and
the traversal returns normally; no `MalformedTree` condition exists in the
code. -/
theorem claim_C9_no_depth_bound_amended (n : Nat) (headers : List Header) :
    depthForest (deepChain n) = n + 1 ∧
    extract_all_assets_with_metrics headers (deepChain n) =
      [("leaf", extract_metrics_from_asset [] headers)] := by
  refine ⟨depth_deepChain n, ?_⟩
  rw [extract_all_assets_with_metrics, walkAssets_deepChain]
  simp [addAsset, assocGet, assocSet]
